import Mathlib

/-!
Verification of the six-thinking-hats frontend (src/frontend/src/App.jsx)
against its natural-language specification.

JavaScript strings are modelled as lists of characters so that the
whitespace-trimming behaviour of String.prototype.trim can be reasoned
about exactly.  The React component state and its event handlers are
modelled as explicit state records with pure transition functions.
-/

namespace SixHats

/-! ### JavaScript string primitives -/

/-- Whitespace recognised by JavaScript String.prototype.trim
(space, tab, line feed, carriage return, vertical tab, form feed,
no-break space; further exotic Unicode space classes behave identically
for the purposes of this development). -/
def isJsWS (c : Char) : Bool :=
  c == ' ' || c == '\t' || c == '\n' || c == '\r' ||
  c == Char.ofNat 11 || c == Char.ofNat 12 || c == Char.ofNat 160

/-- Drop leading JavaScript whitespace. -/
def trimLeft (s : List Char) : List Char := s.dropWhile isJsWS

/-- Drop trailing JavaScript whitespace. -/
def trimRight (s : List Char) : List Char := (s.reverse.dropWhile isJsWS).reverse

/-- JavaScript String.prototype.trim: drop whitespace at both ends. -/
def jsTrim (s : List Char) : List Char := trimLeft (trimRight s)

/-- JavaScript Array.prototype.join with a separator: empty for the empty
array, the single element alone, and otherwise elements interleaved with
the separator. -/
def joinSep (sep : List Char) : List (List Char) → List Char
  | [] => []
  | [x] => x
  | x :: y :: rest => x ++ sep ++ joinSep sep (y :: rest)

/-! ### Input normalizer (buildStructuredText, App.jsx lines 48-76) -/

/-- The five text-mode template fields of the submission form. -/
structure Fields where
  topic : List Char
  decision : List Char
  stakeholders : List Char
  constraints : List Char
  context : List Char
deriving DecidableEq

def hTopic : List Char := "# Topic / Problem Statement".data

def hDecision : List Char := "# Decision to make (Blue Hat)".data

def hStakeholders : List Char := "# Stakeholders".data

def hConstraints : List Char := "# Constraints / Non-negotiables".data

def hContext : List Char := "# Context (optional)".data

/-- One conditional push-group of buildStructuredText: when the trimmed
field value is truthy (non-empty) push the heading, the trimmed value and
a blank line; otherwise push nothing. -/
def fieldLines (heading value : List Char) : List (List Char) :=
  if jsTrim value = [] then [] else [heading, jsTrim value, []]

/-- buildStructuredText from App.jsx: accumulate the per-field line groups
in the fixed order topic, decision, stakeholders, constraints, context,
join them with newlines and trim the result. -/
def buildStructuredText (f : Fields) : List Char :=
  jsTrim (joinSep [Char.ofNat 10]
    (fieldLines hTopic f.topic ++
     fieldLines hDecision f.decision ++
     fieldLines hStakeholders f.stakeholders ++
     fieldLines hConstraints f.constraints ++
     fieldLines hContext f.context))

/-- Spec-side reading of the normalizer: each field that is non-empty
after trimming contributes one block, namely its fixed heading line
followed by the trimmed value. -/
def specBlock (heading value : List Char) : List (List Char) :=
  if jsTrim value = [] then [] else [heading ++ Char.ofNat 10 :: jsTrim value]

/-- Spec-side normalizer: the blocks of the non-empty fields, in the fixed
order, concatenated with one blank line between consecutive blocks. -/
def buildStructuredTextSpec (f : Fields) : List Char :=
  joinSep [Char.ofNat 10, Char.ofNat 10]
    (specBlock hTopic f.topic ++
     specBlock hDecision f.decision ++
     specBlock hStakeholders f.stakeholders ++
     specBlock hConstraints f.constraints ++
     specBlock hContext f.context)

/-- Generic form of the line accumulation over a list of
(heading, field value) pairs. -/
def mkBlocks : List (List Char × List Char) → List (List Char)
  | [] => []
  | (h, v) :: rest => fieldLines h v ++ mkBlocks rest

/-- Generic form of the spec-side blocks over a list of
(heading, field value) pairs. -/
def specBlocks : List (List Char × List Char) → List (List Char)
  | [] => []
  | (h, v) :: rest => specBlock h v ++ specBlocks rest

/-- The heading/value pairs of a field record, in source order. -/
def fieldPairs (f : Fields) : List (List Char × List Char) :=
  [(hTopic, f.topic), (hDecision, f.decision), (hStakeholders, f.stakeholders),
   (hConstraints, f.constraints), (hContext, f.context)]

/-! ### The HATS constant (App.jsx lines 5-42) -/

/-- One entry of the HATS array. -/
structure Hat where
  key : String
  label : String
  description : String
  prompt : String
deriving DecidableEq

/-- The HATS array, verbatim from App.jsx. -/
def HATS : List Hat :=
  [⟨"blue", "Blue", "Big picture & facilitation",
    "Manage the process: clarify the purpose, question, scope, priorities, and the hat sequence."⟩,
   ⟨"white", "White", "Facts & information",
    "List what is known, what is assumed, and what information/data is needed next."⟩,
   ⟨"red", "Red", "Feelings & intuitions",
    "Surface gut reactions, hopes, fears, and stakeholder emotions (no justification needed)."⟩,
   ⟨"yellow", "Yellow", "Benefits & opportunities",
    "Identify value, upsides, and conditions under which the idea is likely to succeed."⟩,
   ⟨"black", "Black", "Risks & failure modes",
    "Identify what could go wrong, constraints, unintended consequences, and minimum safety conditions."⟩,
   ⟨"green", "Green", "New ideas & alternatives",
    "Generate options, improvements, lateral provocations, and quick experiments (no criticism)."⟩]

/-! ### Hat orchestrator (backend), modelled from the spec -/

/-- The six fixed hat roles. -/
inductive HatRole
  | blue
  | white
  | red
  | yellow
  | black
  | green
deriving DecidableEq, Repr

/-- The six roles in display order. -/
def allRoles : List HatRole :=
  [.blue, .white, .red, .yellow, .black, .green]

/-- Status of one per-hat result. -/
inductive HatStatus
  | ok
  | error
deriving DecidableEq, Repr

/-- One per-role analysis result: content when ok, message when error. -/
structure HatResult where
  role : HatRole
  status : HatStatus
  content : String
  message : String
deriving DecidableEq, Repr

/-- Modelled from the spec: the backend hat orchestrator is not part of
src/ (only the frontend is); the spec states that, given a normalized
document and an answer-length preference, it issues one independent
backend call per role and collects exactly one HatResult per HatRole:
status ok with the returned text on success, status error with a
human-readable message on any per-role backend failure, never aborting
the sibling roles.  The per-role backend outcome is abstracted as a
function from roles to a success text or an error message. -/
def hatResultFor (backend : HatRole → Except String String) (r : HatRole) :
    HatResult :=
  match backend r with
  | .ok text => ⟨r, .ok, text, ""⟩
  | .error msg => ⟨r, .error, "", msg⟩

/-- Modelled from the spec: the whole analysis collects the per-role
results for the six roles in display order. -/
def runAnalysis (backend : HatRole → Except String String) : List HatResult :=
  allRoles.map (hatResultFor backend)

/-! ### Client state and the analyze / download handlers -/

/-- The two input modes of the UI toggle. -/
inductive Mode
  | text
  | pdf
deriving DecidableEq

/-- The answer-length preference. -/
inductive AnswerLength
  | short
  | long
deriving DecidableEq

/-- An uploaded PDF file value, treated opaquely by the client. -/
structure PDFFile where
  name : String
deriving DecidableEq

/-- The portion of the App component state that the analyze and download
handlers read. -/
structure ClientState where
  mode : Mode
  topic : List Char
  decision : List Char
  stakeholders : List Char
  constraints : List Char
  context : List Char
  fileValue : Option PDFFile
  answerLength : AnswerLength
  analysis : Option (List HatResult)
  notesByHat : List (String × String)
deriving DecidableEq

/-- The memoized structuredText value of the component. -/
def structuredText (s : ClientState) : List Char :=
  buildStructuredText
    ⟨s.topic, s.decision, s.stakeholders, s.constraints, s.context⟩

/-- isReadyToAnalyze from App.jsx: in text mode the trimmed structured
text must be non-empty, otherwise a file must be selected. -/
def isReadyToAnalyze (s : ClientState) : Bool :=
  match s.mode with
  | .text => decide (0 < (jsTrim (structuredText s)).length)
  | .pdf => s.fileValue.isSome

/-- The body of a submit-analysis request: either the JSON body with
exactly the fields text and answer_length, or the multipart form with
exactly the file and answer_length. -/
inductive AnalyzeRequest
  | json (text : List Char) (answer_length : AnswerLength)
  | multipart (file : PDFFile) (answer_length : AnswerLength)
deriving DecidableEq

/-- handleAnalyze from App.jsx, reduced to the request it issues: when
not ready it sets an error message and issues no request; in PDF mode
with a selected file it posts the multipart form; otherwise it posts the
JSON body built from structuredText and answerLength. -/
def analyzeRequest (s : ClientState) : Option AnalyzeRequest :=
  if isReadyToAnalyze s then
    match s.mode, s.fileValue with
    | .pdf, some f => some (.multipart f s.answerLength)
    | _, _ => some (.json (structuredText s) s.answerLength)
  else
    none

/-- The JSON body of a generate-report request: exactly the fields
analysis, answer_length and notes. -/
structure ReportRequest where
  analysis : List HatResult
  answer_length : AnswerLength
  notes : List (String × String)
deriving DecidableEq

/-- handleDownload from App.jsx, reduced to the request it issues: when
no analysis is held it returns immediately without a request; otherwise
it posts the held analysis, the answer length and the per-hat notes. -/
def downloadRequest (s : ClientState) : Option ReportRequest :=
  match s.analysis with
  | none => none
  | some a => some ⟨a, s.answerLength, s.notesByHat⟩

/-! ### Hat selection and notes state machine (App.jsx lines 91-234) -/

/-- The hat-selection and notes portion of the component state. -/
structure UIState where
  selectedHat : String
  notesByHat : List (String × String)
deriving DecidableEq

/-- The initial state: selectedHat starts as blue and notesByHat maps
every hat key to the empty string (Object.fromEntries over HATS). -/
def initialUIState : UIState :=
  ⟨"blue", HATS.map (fun h => (h.key, ""))⟩

/-- The events that update selectedHat or notesByHat in App.jsx: a
successful analysis resets the selection to blue; clicking a hat tab
selects the key of a member of HATS; editing the notes textarea writes a
value for the currently selected hat; the clear button writes the empty
string for the currently selected hat. -/
inductive UIEvent
  | analyzeSuccess
  | pickHat (i : Fin HATS.length)
  | editNote (v : String)
  | clearNote

/-- JavaScript object spread update: if the key is already
present every binding for it is overwritten in place, otherwise the new
binding is appended. -/
def jsSpreadSet (m : List (String × String)) (k v : String) :
    List (String × String) :=
  if m.any (fun p => p.1 == k) then
    m.map (fun p => if p.1 == k then (k, v) else p)
  else
    m ++ [(k, v)]

/-- setNotesForHat from App.jsx, always invoked with the currently
selected hat as the key. -/
def setNotesForHat (s : UIState) (v : String) : UIState :=
  { s with notesByHat := jsSpreadSet s.notesByHat s.selectedHat v }

/-- One state transition of the selection/notes state. -/
def uiStep (s : UIState) : UIEvent → UIState
  | .analyzeSuccess => { s with selectedHat := "blue" }
  | .pickHat i => { s with selectedHat := (HATS.get i).key }
  | .editNote v => setNotesForHat s v
  | .clearNote => setNotesForHat s ""

/-- The state reached from the initial state by a sequence of events. -/
def uiRun (evs : List UIEvent) : UIState :=
  evs.foldl uiStep initialUIState

/-- A text-mode state whose topic is empty while the decision field is
filled in. -/
def emptyTopicState : ClientState :=
  ⟨.text, [], "Choose option A and plan the rollout".data, [], [], [],
   none, .long, none, []⟩

/-- A text-mode state in which every template field is empty or
whitespace-only. -/
def blankFieldsState : ClientState :=
  ⟨.text, "   ".data, [], "\n\t ".data, [], " ".data, none, .long, none, []⟩

/-- A ready text-mode state used to exercise the analyze handler. -/
def readyTextState : ClientState :=
  ⟨.text, "Adopt a 4-day work week".data, [], [], [], [],
   none, .short, none, [("blue", "team note")]⟩

/-- A one-entry analysis value used to exercise the download handler. -/
def sampleAnalysis : List HatResult :=
  [⟨.blue, .ok, "Clarify the question first.", ""⟩]

/-- A state holding an analysis, used to exercise the download handler. -/
def withAnalysisState : ClientState :=
  ⟨.text, "t".data, [], [], [], [], none, .long, some sampleAnalysis,
   [("blue", "our conclusion"), ("white", "")]⟩

/-- The invariant linking the selected hat and the notes mapping: the
selected hat is one of the hat keys and the notes mapping is keyed by
exactly the hat keys. -/
def uiInv (s : UIState) : Prop :=
  s.selectedHat ∈ HATS.map Hat.key ∧
    s.notesByHat.map Prod.fst = HATS.map Hat.key

/-- A non-empty character list whose first character is not whitespace. -/
def headClean : List Char → Bool
  | [] => false
  | c :: _ => !isJsWS c

/-- A block is clean when it is non-empty and neither end is whitespace. -/
def cleanBlock (b : List Char) : Prop :=
  b ≠ [] ∧ (∀ c, b.head? = some c → isJsWS c = false) ∧
    (∀ c, b.getLast? = some c → isJsWS c = false)

/-! ### Lemmas about trimming -/

theorem head?_dropWhile_ws (p : Char → Bool) :
    ∀ (l : List Char) (c : Char), (l.dropWhile p).head? = some c → p c = false := by
  intro l
  induction l with
  | nil => intro c h; simp at h
  | cons x xs ih =>
    intro c h
    by_cases hx : p x = true
    · rw [List.dropWhile_cons_of_pos hx] at h
      exact ih c h
    · rw [List.dropWhile_cons_of_neg hx] at h
      simp only [List.head?_cons, Option.some.injEq] at h
      subst h
      exact Bool.not_eq_true _ ▸ hx

theorem dropWhile_ne_nil_of_ne_nil (p : Char → Bool) (l : List Char)
    (h : l.dropWhile p ≠ []) : l ≠ [] := by
  intro hl
  subst hl
  exact h rfl

theorem head?_append_left {α : Type} (a b : List α) (ha : a ≠ []) :
    (a ++ b).head? = a.head? := by
  cases a with
  | nil => exact absurd rfl ha
  | cons x xs => rfl

theorem getLast?_dropWhile_ws (p : Char → Bool) :
    ∀ (l : List Char), l.dropWhile p ≠ [] →
      (l.dropWhile p).getLast? = l.getLast? := by
  intro l
  induction l with
  | nil => intro h; simp at h
  | cons x xs ih =>
    intro h
    by_cases hx : p x = true
    · rw [List.dropWhile_cons_of_pos hx] at h ⊢
      have hxs : xs ≠ [] := dropWhile_ne_nil_of_ne_nil p xs h
      rw [ih h, ← List.head?_reverse, ← List.head?_reverse]
      have hrev : (x :: xs).reverse = xs.reverse ++ [x] := by simp
      rw [hrev, head?_append_left _ _ (by simpa using hxs)]
    · rw [List.dropWhile_cons_of_neg hx]

theorem getLast?_append_right {α : Type} (a b : List α) (hb : b ≠ []) :
    (a ++ b).getLast? = b.getLast? := by
  rw [← List.head?_reverse, ← List.head?_reverse, List.reverse_append]
  exact head?_append_left _ _ (by simpa using hb)

theorem trimLeft_eq_self (s : List Char)
    (h : ∀ c, s.head? = some c → isJsWS c = false) : trimLeft s = s := by
  cases s with
  | nil => rfl
  | cons x xs =>
    have hx : isJsWS x = false := h x rfl
    unfold trimLeft
    rw [List.dropWhile_cons_of_neg (by simp [hx])]

theorem trimRight_eq_self (s : List Char)
    (h : ∀ c, s.getLast? = some c → isJsWS c = false) : trimRight s = s := by
  unfold trimRight
  have hrev : s.reverse.dropWhile isJsWS = s.reverse := by
    cases hs : s.reverse with
    | nil => rfl
    | cons x xs =>
      have hx : isJsWS x = false := by
        apply h
        rw [← List.head?_reverse, hs]
        rfl
      rw [List.dropWhile_cons_of_neg (by simp [hx])]
  rw [hrev, List.reverse_reverse]

theorem jsTrim_eq_self (s : List Char) (h : cleanBlock s) : jsTrim s = s := by
  obtain ⟨-, hhead, hlast⟩ := h
  unfold jsTrim
  rw [trimRight_eq_self s hlast, trimLeft_eq_self s hhead]

theorem jsTrim_ne_nil_of_clean (s : List Char) (h : cleanBlock s) :
    jsTrim s ≠ [] := by
  rw [jsTrim_eq_self s h]
  exact h.1

theorem trimRight_append_nl (s : List Char) :
    trimRight (s ++ [Char.ofNat 10]) = trimRight s := by
  unfold trimRight
  rw [List.reverse_append]
  have : [Char.ofNat 10].reverse ++ s.reverse = Char.ofNat 10 :: s.reverse := rfl
  rw [this, List.dropWhile_cons_of_pos (by decide)]

theorem jsTrim_append_nl (s : List Char) :
    jsTrim (s ++ [Char.ofNat 10]) = jsTrim s := by
  unfold jsTrim
  rw [trimRight_append_nl]

/-! ### Lemmas about the trimmed ends of jsTrim -/

theorem jsTrim_head_not_ws (s : List Char) (c : Char)
    (h : (jsTrim s).head? = some c) : isJsWS c = false :=
  head?_dropWhile_ws isJsWS (trimRight s) c h

theorem jsTrim_getLast_not_ws (s : List Char) (c : Char)
    (hne : jsTrim s ≠ []) (h : (jsTrim s).getLast? = some c) :
    isJsWS c = false := by
  have htr : trimRight s ≠ [] := dropWhile_ne_nil_of_ne_nil isJsWS _ hne
  have h1 : (jsTrim s).getLast? = (trimRight s).getLast? :=
    getLast?_dropWhile_ws isJsWS (trimRight s) hne
  have h2 : (trimRight s).getLast? = (s.reverse.dropWhile isJsWS).head? := by
    unfold trimRight
    rw [← List.head?_reverse, List.reverse_reverse]
  have hdrop : s.reverse.dropWhile isJsWS ≠ [] := by
    intro hd
    apply htr
    unfold trimRight
    rw [hd]
    rfl
  apply head?_dropWhile_ws isJsWS s.reverse c
  rw [← h2, ← h1, h]

theorem cleanBlock_jsTrim (s : List Char) (hne : jsTrim s ≠ []) :
    cleanBlock (jsTrim s) := by
  refine ⟨hne, ?_, ?_⟩
  · intro c hc
    exact jsTrim_head_not_ws s c hc
  · intro c hc
    exact jsTrim_getLast_not_ws s c hne hc

/-! ### Cleanliness of spec blocks and their join -/

theorem cleanBlock_append_block (h t : List Char)
    (hh : headClean h = true) (ht : cleanBlock t) :
    cleanBlock (h ++ Char.ofNat 10 :: t) := by
  cases h with
  | nil => simp [headClean] at hh
  | cons x xs =>
    refine ⟨by simp, ?_, ?_⟩
    · intro c hc
      simp only [List.cons_append, List.head?_cons, Option.some.injEq] at hc
      subst hc
      simpa [headClean] using hh
    · intro c hc
      rw [getLast?_append_right _ _ (by simp)] at hc
      have : (Char.ofNat 10 :: t).getLast? = t.getLast? := by
        rw [← List.head?_reverse, ← List.head?_reverse]
        have hrev : (Char.ofNat 10 :: t).reverse = t.reverse ++ [Char.ofNat 10] := by
          simp
        rw [hrev, head?_append_left _ _ (by simpa using ht.1)]
      rw [this] at hc
      exact ht.2.2 c hc

theorem specBlock_clean (h v : List Char) (hh : headClean h = true) :
    ∀ b ∈ specBlock h v, cleanBlock b := by
  intro b hb
  unfold specBlock at hb
  by_cases hv : jsTrim v = []
  · simp [hv] at hb
  · rw [if_neg hv] at hb
    simp only [List.mem_singleton] at hb
    subst hb
    exact cleanBlock_append_block h (jsTrim v) hh (cleanBlock_jsTrim v hv)

theorem joinSep_clean (sep : List Char) :
    ∀ (blocks : List (List Char)), blocks ≠ [] →
      (∀ b ∈ blocks, cleanBlock b) → cleanBlock (joinSep sep blocks) := by
  intro blocks
  induction blocks with
  | nil => intro h; exact absurd rfl h
  | cons b rest ih =>
    intro _ hall
    have hb : cleanBlock b := hall b (List.mem_cons_self b rest)
    cases rest with
    | nil => exact hb
    | cons b2 rest2 =>
      have hrest : cleanBlock (joinSep sep (b2 :: rest2)) := by
        apply ih (by simp)
        intro x hx
        exact hall x (List.mem_cons_of_mem b hx)
      show cleanBlock (b ++ sep ++ joinSep sep (b2 :: rest2))
      refine ⟨?_, ?_, ?_⟩
      · simp only [ne_eq, List.append_eq_nil]
        intro ⟨⟨hb1, _⟩, _⟩
        exact hb.1 hb1
      · intro c hc
        rw [List.append_assoc, head?_append_left _ _ hb.1] at hc
        exact hb.2.1 c hc
      · intro c hc
        rw [getLast?_append_right _ _ hrest.1] at hc
        exact hrest.2.2 c hc

/-! ### Relating the code-side line accumulation to the spec-side blocks -/

theorem mkBlocks_eq_nil_iff :
    ∀ pairs : List (List Char × List Char),
      mkBlocks pairs = [] ↔ specBlocks pairs = [] := by
  intro pairs
  induction pairs with
  | nil => simp [mkBlocks, specBlocks]
  | cons p rest ih =>
    obtain ⟨h, v⟩ := p
    by_cases hv : jsTrim v = []
    · simp only [mkBlocks, specBlocks, fieldLines, specBlock, hv, if_pos,
        List.nil_append]
      exact ih
    · simp [mkBlocks, specBlocks, fieldLines, specBlock, hv]

theorem specBlocks_clean (pairs : List (List Char × List Char))
    (hh : ∀ p ∈ pairs, headClean p.1 = true) :
    ∀ b ∈ specBlocks pairs, cleanBlock b := by
  induction pairs with
  | nil => intro b hb; simp [specBlocks] at hb
  | cons p rest ih =>
    obtain ⟨h, v⟩ := p
    intro b hb
    simp only [specBlocks, List.mem_append] at hb
    rcases hb with hb | hb
    · exact specBlock_clean h v (hh (h, v) (List.mem_cons_self _ _)) b hb
    · exact ih (fun q hq => hh q (List.mem_cons_of_mem _ hq)) b hb

theorem joinSep_mkBlocks :
    ∀ pairs : List (List Char × List Char),
      joinSep [Char.ofNat 10] (mkBlocks pairs) =
        if specBlocks pairs = [] then []
        else joinSep [Char.ofNat 10, Char.ofNat 10] (specBlocks pairs) ++
          [Char.ofNat 10] := by
  intro pairs
  induction pairs with
  | nil => simp [mkBlocks, specBlocks, joinSep]
  | cons p rest ih =>
    obtain ⟨h, v⟩ := p
    by_cases hv : jsTrim v = []
    · simp only [mkBlocks, specBlocks, fieldLines, specBlock, hv, if_pos,
        List.nil_append]
      exact ih
    · simp only [mkBlocks, specBlocks, fieldLines, specBlock, hv, if_neg,
        List.cons_append, List.singleton_append]
      cases hM : mkBlocks rest with
      | nil =>
        have hS : specBlocks rest = [] := (mkBlocks_eq_nil_iff rest).mp hM
        rw [hS]
        show joinSep [Char.ofNat 10] [h, jsTrim v, []] =
          joinSep [Char.ofNat 10, Char.ofNat 10] [h ++ Char.ofNat 10 :: jsTrim v] ++
            [Char.ofNat 10]
        show h ++ [Char.ofNat 10] ++ (jsTrim v ++ [Char.ofNat 10] ++ []) =
          (h ++ Char.ofNat 10 :: jsTrim v) ++ [Char.ofNat 10]
        simp
      | cons m M =>
        have hS : specBlocks rest ≠ [] := by
          intro hs
          rw [(mkBlocks_eq_nil_iff rest).mpr hs] at hM
          exact List.cons_ne_nil m M hM.symm
        rw [hM] at ih
        cases hQ : specBlocks rest with
        | nil => exact absurd hQ hS
        | cons q Q =>
          rw [hQ, if_neg (List.cons_ne_nil q Q)] at ih
          show joinSep [Char.ofNat 10] (h :: jsTrim v :: [] :: m :: M) =
            joinSep [Char.ofNat 10, Char.ofNat 10]
              ((h ++ Char.ofNat 10 :: jsTrim v) :: q :: Q) ++ [Char.ofNat 10]
          show h ++ [Char.ofNat 10] ++ (jsTrim v ++ [Char.ofNat 10] ++
              ([] ++ [Char.ofNat 10] ++ joinSep [Char.ofNat 10] (m :: M))) =
            ((h ++ Char.ofNat 10 :: jsTrim v) ++ [Char.ofNat 10, Char.ofNat 10] ++
              joinSep [Char.ofNat 10, Char.ofNat 10] (q :: Q)) ++ [Char.ofNat 10]
          rw [ih]
          simp

theorem jsTrim_joinSep_mkBlocks (pairs : List (List Char × List Char))
    (hh : ∀ p ∈ pairs, headClean p.1 = true) :
    jsTrim (joinSep [Char.ofNat 10] (mkBlocks pairs)) =
      joinSep [Char.ofNat 10, Char.ofNat 10] (specBlocks pairs) := by
  rw [joinSep_mkBlocks pairs]
  by_cases hsb : specBlocks pairs = []
  · rw [if_pos hsb, hsb]
    rfl
  · rw [if_neg hsb, jsTrim_append_nl]
    exact jsTrim_eq_self _
      (joinSep_clean _ _ hsb (specBlocks_clean pairs hh))

theorem mkBlocks_fieldPairs (f : Fields) :
    mkBlocks (fieldPairs f) =
      fieldLines hTopic f.topic ++
      fieldLines hDecision f.decision ++
      fieldLines hStakeholders f.stakeholders ++
      fieldLines hConstraints f.constraints ++
      fieldLines hContext f.context := by
  simp [mkBlocks, fieldPairs, List.append_assoc]

theorem specBlocks_fieldPairs (f : Fields) :
    specBlocks (fieldPairs f) =
      specBlock hTopic f.topic ++
      specBlock hDecision f.decision ++
      specBlock hStakeholders f.stakeholders ++
      specBlock hConstraints f.constraints ++
      specBlock hContext f.context := by
  simp [specBlocks, fieldPairs, List.append_assoc]

theorem fieldPairs_headClean (f : Fields) :
    ∀ p ∈ fieldPairs f, headClean p.1 = true := by
  intro p hp
  simp only [fieldPairs, List.mem_cons, List.not_mem_nil, or_false] at hp
  rcases hp with h | h | h | h | h <;> subst h
  · exact (by decide : headClean hTopic = true)
  · exact (by decide : headClean hDecision = true)
  · exact (by decide : headClean hStakeholders = true)
  · exact (by decide : headClean hConstraints = true)
  · exact (by decide : headClean hContext = true)

theorem buildStructuredText_eq_spec (f : Fields) :
    buildStructuredText f = buildStructuredTextSpec f := by
  have h1 : buildStructuredText f =
      jsTrim (joinSep [Char.ofNat 10] (mkBlocks (fieldPairs f))) := by
    rw [mkBlocks_fieldPairs]
    rfl
  have h2 : buildStructuredTextSpec f =
      joinSep [Char.ofNat 10, Char.ofNat 10] (specBlocks (fieldPairs f)) := by
    rw [specBlocks_fieldPairs]
    rfl
  rw [h1, h2]
  exact jsTrim_joinSep_mkBlocks (fieldPairs f) (fieldPairs_headClean f)

/-! ### Emptiness of the structured text -/

theorem specBlock_eq_nil_iff (h v : List Char) :
    specBlock h v = [] ↔ jsTrim v = [] := by
  unfold specBlock
  by_cases hv : jsTrim v = [] <;> simp [hv]

theorem specBlocks_fieldPairs_eq_nil_iff (f : Fields) :
    specBlocks (fieldPairs f) = [] ↔
      (jsTrim f.topic = [] ∧ jsTrim f.decision = [] ∧
       jsTrim f.stakeholders = [] ∧ jsTrim f.constraints = [] ∧
       jsTrim f.context = []) := by
  rw [specBlocks_fieldPairs]
  simp [List.append_eq_nil, specBlock_eq_nil_iff, and_assoc]

theorem jsTrim_structuredText_eq_nil_iff (s : ClientState) :
    jsTrim (structuredText s) = [] ↔
      (jsTrim s.topic = [] ∧ jsTrim s.decision = [] ∧
       jsTrim s.stakeholders = [] ∧ jsTrim s.constraints = [] ∧
       jsTrim s.context = []) := by
  have hb : structuredText s =
      joinSep [Char.ofNat 10, Char.ofNat 10]
        (specBlocks (fieldPairs
          ⟨s.topic, s.decision, s.stakeholders, s.constraints, s.context⟩)) := by
    unfold structuredText
    rw [buildStructuredText_eq_spec, specBlocks_fieldPairs]
    rfl
  rw [hb]
  by_cases hsp : specBlocks (fieldPairs
      ⟨s.topic, s.decision, s.stakeholders, s.constraints, s.context⟩) = []
  · rw [hsp]
    have h5 := (specBlocks_fieldPairs_eq_nil_iff _).mp hsp
    constructor
    · intro _
      exact h5
    · intro _
      rfl
  · have hcl := joinSep_clean [Char.ofNat 10, Char.ofNat 10] _ hsp
      (specBlocks_clean _ (fieldPairs_headClean _))
    rw [jsTrim_eq_self _ hcl]
    constructor
    · intro h
      exact absurd h hcl.1
    · intro h5
      exact absurd ((specBlocks_fieldPairs_eq_nil_iff _).mpr h5) hsp

theorem analyzeRequest_eq_none_iff (s : ClientState) :
    analyzeRequest s = none ↔ isReadyToAnalyze s = false := by
  rcases hmode : s.mode with _ | _ <;> rcases hf : s.fileValue with _ | f <;>
    by_cases h : isReadyToAnalyze s = true <;>
      simp [analyzeRequest, hmode, hf, h]

/-! ### Claim theorems -/

/-- Claim C1, counterexample: a text-mode state whose topic is empty
after trimming but whose decision field is filled in is not rejected: a
request is sent to the backend, contradicting the claim that an empty
topic always yields a validation error regardless of the other fields. -/
theorem text_gate_topic_counterexample :
    emptyTopicState.mode = Mode.text ∧ jsTrim emptyTopicState.topic = [] ∧
      analyzeRequest emptyTopicState ≠ none := by
  refine ⟨rfl, rfl, ?_⟩
  decide

/-- Claim C1 (amended): in text mode the submission is rejected with the
validation error message and no request is sent to the backend exactly
when all five template fields (not just the topic) are empty or
whitespace-only after trimming. -/
theorem text_gate_requires_content (s : ClientState)
    (hm : s.mode = Mode.text) :
    analyzeRequest s = none ↔
      (jsTrim s.topic = [] ∧ jsTrim s.decision = [] ∧
       jsTrim s.stakeholders = [] ∧ jsTrim s.constraints = [] ∧
       jsTrim s.context = []) := by
  rw [analyzeRequest_eq_none_iff]
  unfold isReadyToAnalyze
  rw [hm]
  show (decide (0 < (jsTrim (structuredText s)).length) = false) ↔ _
  rw [decide_eq_false_iff_not, Nat.not_lt, Nat.le_zero,
    List.length_eq_zero]
  exact jsTrim_structuredText_eq_nil_iff s

/-- Claim C1, witness: a state in which every field is whitespace-only is
rejected and no request is issued. -/
theorem text_gate_requires_content_witness :
    analyzeRequest blankFieldsState = none :=
  (text_gate_requires_content blankFieldsState rfl).mpr (by decide)

/-- Claim C2: buildStructuredText returns exactly the concatenation of
the fields that are non-empty after trimming, in the fixed order topic,
decision, stakeholders, constraints, context, each preceded by its fixed
heading line, with every empty or whitespace-only field omitted together
with its heading. -/
theorem build_structured_text_correct (f : Fields) :
    buildStructuredText f = buildStructuredTextSpec f :=
  buildStructuredText_eq_spec f

/-- Claim C3: for every per-role backend outcome, the analysis result
contains exactly one HatResult for each of the six roles (none missing,
none duplicated), and six results in total, regardless of which backend
calls succeed or fail. -/
theorem analysis_one_result_per_role
    (backend : HatRole → Except String String) (r : HatRole) :
    ((runAnalysis backend).filter (fun h => h.role == r)).length = 1 ∧
      (runAnalysis backend).length = 6 := by
  constructor
  · unfold runAnalysis
    rw [List.filter_map, List.length_map]
    have hcong :
        List.filter ((fun h => h.role == r) ∘ hatResultFor backend) allRoles =
          List.filter (fun x => x == r) allRoles := by
      apply List.filter_congr
      intro x hx
      have hrole : (hatResultFor backend x).role = x := by
        cases hbx : backend x <;> simp [hatResultFor, hbx]
      simp [Function.comp, hrole]
    rw [hcong]
    cases r <;> decide
  · unfold runAnalysis
    rw [List.length_map]
    rfl

/-- Claim C4: the hat enumeration is exactly the six keys blue, white,
red, yellow, black, green in that fixed display order, no key repeats,
and every entry carries non-empty static label, description and
facilitator prompt strings. -/
theorem hats_fixed_enumeration :
    HATS.map Hat.key = ["blue", "white", "red", "yellow", "black", "green"] ∧
      (HATS.map Hat.key).Nodup ∧
      ∀ h ∈ HATS, h.label ≠ "" ∧ h.description ≠ "" ∧ h.prompt ≠ "" := by
  refine ⟨by decide, by decide, by decide⟩

/-- Claim C5: every submit-analysis request that is issued has exactly
one of two shapes determined by the mode: in text mode the JSON body
with exactly the structured text and the answer length, in PDF mode the
multipart form with exactly the selected file and the answer length. -/
theorem analyze_request_shape (s : ClientState) (r : AnalyzeRequest)
    (h : analyzeRequest s = some r) :
    (s.mode = Mode.text ∧ r = .json (structuredText s) s.answerLength) ∨
      (s.mode = Mode.pdf ∧ ∃ f, s.fileValue = some f ∧
        r = .multipart f s.answerLength) := by
  unfold analyzeRequest at h
  by_cases hr : isReadyToAnalyze s = true
  · rw [if_pos hr] at h
    rcases hmode : s.mode with _ | _
    · left
      rw [hmode] at h
      injection h with h
      exact ⟨rfl, h.symm⟩
    · right
      rw [hmode] at h
      rcases hf : s.fileValue with _ | f
      · exfalso
        unfold isReadyToAnalyze at hr
        rw [hmode, hf] at hr
        simp at hr
      · rw [hf] at h
        injection h with h
        exact ⟨rfl, f, rfl, h.symm⟩
  · rw [if_neg hr] at h
    cases h

/-- Claim C5, witness: a ready text-mode state issues the JSON-shaped
request. -/
theorem analyze_request_shape_witness :
    (readyTextState.mode = Mode.text ∧
        AnalyzeRequest.json (structuredText readyTextState)
            readyTextState.answerLength =
          AnalyzeRequest.json (structuredText readyTextState)
            readyTextState.answerLength) ∨
      (readyTextState.mode = Mode.pdf ∧
        ∃ f, readyTextState.fileValue = some f ∧
          AnalyzeRequest.json (structuredText readyTextState)
              readyTextState.answerLength =
            AnalyzeRequest.multipart f readyTextState.answerLength) :=
  analyze_request_shape readyTextState
    (.json (structuredText readyTextState) readyTextState.answerLength)
    (by decide)

/-- Claim C6: every generate-report request carries exactly the held
analysis, the answer length, and the per-hat notes mapping. -/
theorem download_request_body (s : ClientState) (a : List HatResult)
    (h : s.analysis = some a) :
    downloadRequest s = some ⟨a, s.answerLength, s.notesByHat⟩ := by
  unfold downloadRequest
  rw [h]

/-- Claim C6, witness: a state holding an analysis issues the report
request with that analysis, the answer length and the notes. -/
theorem download_request_body_witness :
    downloadRequest withAnalysisState =
      some ⟨sampleAnalysis, withAnalysisState.answerLength,
        withAnalysisState.notesByHat⟩ :=
  download_request_body withAnalysisState sampleAnalysis rfl

/-- Claim C7: when no analysis is held, the download handler returns
immediately and no generate-report request is issued. -/
theorem download_absent_analysis (s : ClientState)
    (h : s.analysis = none) : downloadRequest s = none := by
  unfold downloadRequest
  rw [h]

/-- Claim C7, witness: a state with no analysis issues no report
request. -/
theorem download_absent_analysis_witness :
    downloadRequest readyTextState = none :=
  download_absent_analysis readyTextState rfl

/-- Claim C8: the per-hat notes never influence and are never included
in a submit-analysis request (two states differing only in notesByHat
issue identical analyze requests), and the notes are transmitted only in
the generate-report request, which carries exactly the held notes. -/
theorem notes_never_in_analyze_request :
    (∀ (s : ClientState) (ns : List (String × String)),
        analyzeRequest { s with notesByHat := ns } = analyzeRequest s) ∧
      ∀ s : ClientState,
        (downloadRequest s).elim True (fun req => req.notes = s.notesByHat) := by
  constructor
  · intro s ns
    cases s
    rfl
  · intro s
    rcases h : s.analysis with _ | a <;> simp [downloadRequest, h]

/-! ### The selected-hat / notes invariant -/

theorem jsSpreadSet_map_fst (m : List (String × String)) (k v : String)
    (hk : k ∈ m.map Prod.fst) :
    (jsSpreadSet m k v).map Prod.fst = m.map Prod.fst := by
  have hany : (m.any fun p => p.1 == k) = true := by
    rw [List.any_eq_true]
    rcases List.mem_map.mp hk with ⟨p, hp, hpk⟩
    exact ⟨p, hp, by simp [hpk]⟩
  unfold jsSpreadSet
  rw [if_pos hany, List.map_map]
  apply List.map_congr_left
  intro p hp
  by_cases h : p.1 = k
  · simp [Function.comp, h]
  · simp [Function.comp, h]

theorem uiInv_initial : uiInv initialUIState := by
  constructor
  · decide
  · rfl

theorem uiInv_step (s : UIState) (e : UIEvent) (h : uiInv s) :
    uiInv (uiStep s e) := by
  obtain ⟨hsel, hdom⟩ := h
  cases e with
  | analyzeSuccess =>
    refine ⟨?_, hdom⟩
    show ("blue" : String) ∈ HATS.map Hat.key
    decide
  | pickHat i =>
    refine ⟨?_, hdom⟩
    exact List.mem_map.mpr ⟨HATS.get i, List.get_mem HATS i.1 i.2, rfl⟩
  | editNote v =>
    refine ⟨hsel, ?_⟩
    show (jsSpreadSet s.notesByHat s.selectedHat v).map Prod.fst =
      HATS.map Hat.key
    rw [jsSpreadSet_map_fst _ _ _ (hdom.symm ▸ hsel), hdom]
  | clearNote =>
    refine ⟨hsel, ?_⟩
    show (jsSpreadSet s.notesByHat s.selectedHat "").map Prod.fst =
      HATS.map Hat.key
    rw [jsSpreadSet_map_fst _ _ _ (hdom.symm ▸ hsel), hdom]

theorem uiInv_foldl :
    ∀ (evs : List UIEvent) (s : UIState),
      uiInv s → uiInv (evs.foldl uiStep s) := by
  intro evs
  induction evs with
  | nil => intro s h; exact h
  | cons e evs ih => intro s h; exact ih (uiStep s e) (uiInv_step s e h)

theorem uiInv_run (evs : List UIEvent) : uiInv (uiRun evs) :=
  uiInv_foldl evs initialUIState uiInv_initial

/-- Claim C9: the selected hat starts as blue and, after any sequence of
updates, is always the key of one of the six hats, so the lookup of the
active hat in HATS never fails. -/
theorem selected_hat_always_valid (evs : List UIEvent) :
    (uiRun []).selectedHat = "blue" ∧
      (uiRun evs).selectedHat ∈ HATS.map Hat.key ∧
      (HATS.find? (fun h => h.key == (uiRun evs).selectedHat)).isSome = true := by
  have hsel := (uiInv_run evs).1
  refine ⟨rfl, hsel, ?_⟩
  rcases List.mem_map.mp hsel with ⟨h, hmem, hkey⟩
  exact List.find?_isSome.mpr ⟨h, hmem, by simp [hkey]⟩

/-- Claim C10: the notes mapping starts with exactly the six hat keys as
its domain, and every update (writing or clearing the note of the
currently selected hat) preserves exactly that key set. -/
theorem notes_keys_invariant (evs : List UIEvent) :
    ((uiRun evs).notesByHat).map Prod.fst = HATS.map Hat.key :=
  (uiInv_run evs).2

end SixHats
